import Mathlib

/-!
# Revora backend — revenue distribution engine, shallow embedding

This file embeds the `DistributionEngine.distribute` operation of the
Revora backend (TypeScript) in Lean 4 and proves the specified
financial-correctness properties about it.

JavaScript `number` arithmetic is embedded as exact rational arithmetic
(`ℚ`); `Math.round` is embedded as "round half toward +∞"
(`⌊x + 1/2⌋`), which is the ECMAScript `Math.round` tie-breaking rule,
and `Number.prototype.toFixed(2)` as sign splitting followed by rounding
of the magnitude and decimal rendering with exactly two fraction digits.
-/

set_option maxRecDepth 4000

namespace Revora

attribute [local semireducible] Rat.add Rat.inv Rat.mul Rat.sub

instance {ε α : Type} [DecidableEq ε] [DecidableEq α] : DecidableEq (Except ε α) := fun a b =>
  match a, b with
  | .error e, .error f =>
    if h : e = f then isTrue (by rw [h]) else isFalse (fun c => h (by cases c; rfl))
  | .error _, .ok _ => isFalse (fun c => Except.noConfusion c)
  | .ok _, .error _ => isFalse (fun c => Except.noConfusion c)
  | .ok x, .ok y =>
    if h : x = y then isTrue (by rw [h]) else isFalse (fun c => h (by cases c; rfl))

/-- ECMAScript `Math.round`: nearest integer, ties toward `+∞`. -/
def jsRound (x : ℚ) : ℤ := ⌊x + 1/2⌋

/-- `Math.round(x * 100)` — the integer number of cents the engine works with. -/
def cents (x : ℚ) : ℤ := jsRound (x * 100)

/-- `Math.round(x * 100) / 100` — round a value to 2 decimal places. -/
def roundCents (x : ℚ) : ℚ := ((cents x : ℤ) : ℚ) / 100

/-- The decimal digit character for `n % 10`. -/
def digitChar (n : Nat) : Char := Char.ofNat (48 + n % 10)

/-- Decimal digits of `n` (most significant first), driven by a fuel
argument so that the recursion is structural; `fuel ≥ n` is enough fuel. -/
def natDigitsAux : Nat → Nat → List Char
  | 0, _ => []
  | fuel + 1, n =>
    if n = 0 then [] else natDigitsAux fuel (n / 10) ++ [digitChar (n % 10)]

/-- Decimal digit string of a natural number, as a character list. -/
def natDigits (n : Nat) : List Char :=
  if n = 0 then ['0'] else natDigitsAux n n

/-- Characters of the decimal rendering of `a` cents: integer part, `'.'`,
then exactly two fraction digits. -/
def centsChars (a : Nat) : List Char :=
  natDigits (a / 100) ++ ['.', digitChar (a % 100 / 10), digitChar (a % 100 % 10)]

/-- ECMAScript `q.toFixed(2)`: split off the sign, round the magnitude to
cents (ties away from zero on the magnitude), render with two decimals. -/
def toFixed2 (q : ℚ) : String :=
  if q < 0 then String.mk ('-' :: centsChars (jsRound (-q * 100)).toNat)
  else String.mk (centsChars (jsRound (q * 100)).toNat)

/-- A row returned by the balance source (`BalanceRow` in the source). -/
structure BalanceRow where
  investor_id : String
  balance : ℚ
deriving Repr, DecidableEq

/-- The period argument of `distribute`, with dates as abstract timestamps. -/
structure Period where
  start : ℤ
  «end» : ℤ
deriving Repr, DecidableEq

/-- A raw (unrounded) proportional share, as built at line 153 of the engine. -/
structure RawShare where
  investor_id : String
  raw : ℚ
deriving Repr, DecidableEq

/-- A provisional rounded share, as built at line 159 of the engine. -/
structure RoundedShare where
  investor_id : String
  amount : ℚ
deriving Repr, DecidableEq

/-- The persisted distribution run record. -/
structure DistributionRun where
  id : Nat
  offering_id : String
  total_amount : String
  distribution_date : ℤ
deriving Repr, DecidableEq

/-- The persisted payout record (`{ investor_id, amount }` plus its run id). -/
structure Payout where
  distribution_run_id : Nat
  investor_id : String
  amount : String
deriving Repr, DecidableEq

/-- The value returned by a successful `distribute` call. -/
structure DistributionResult where
  distributionRun : DistributionRun
  payouts : List Payout
deriving Repr, DecidableEq

/-- The errors thrown by `distribute` before any persistence happens. -/
inductive DistError where
  | invalidAmount
  | noInvestors
  | zeroTotalBalance
deriving Repr, DecidableEq

/-- One call on an external collaborator (balance source or distribution
store), recorded in order of occurrence. -/
inductive ExtCall where
  | getBalances (offeringId : String) (period : Period)
  | createDistributionRun (offering_id : String) (total_amount : String)
      (distribution_date : ℤ)
  | createPayout (distribution_run_id : Nat) (investor_id : String) (amount : String)
deriving Repr, DecidableEq

/-- Whether an external call writes to the distribution store. -/
def isPersistCall : ExtCall → Bool
  | .getBalances _ _ => false
  | .createDistributionRun _ _ _ => true
  | .createPayout _ _ _ => true

/-- `balances.reduce((s, b) => s + Number(b.balance), 0)` (line 147). -/
def totalBalanceOf (balances : List BalanceRow) : ℚ :=
  balances.foldl (fun s b => s + b.balance) 0

/-- Lines 153–156: `raw = (Number(b.balance) / totalBalance) * revenueAmount`. -/
def rawSharesOf (revenueAmount : ℚ) (balances : List BalanceRow) : List RawShare :=
  balances.map fun b =>
    ⟨b.investor_id, b.balance / totalBalanceOf balances * revenueAmount⟩

/-- Line 159: round each raw share to cents. -/
def roundedOf (raws : List RawShare) : List RoundedShare :=
  raws.map fun r => ⟨r.investor_id, roundCents r.raw⟩

/-- Line 160: `rounded.reduce((s, r) => s + r.amount, 0)`. -/
def amountSum (l : List RoundedShare) : ℚ :=
  l.foldl (fun s r => s + r.amount) 0

/-- Line 161: `diff = Math.round((revenueAmount - roundedSum) * 100) / 100`. -/
def diffOf (revenueAmount : ℚ) (raws : List RawShare) : ℚ :=
  roundCents (revenueAmount - amountSum (roundedOf raws))

/-- The loop of lines 165–168: running first index of the strictly largest
value seen so far. `v` is the value at the current best index `k`, and `i`
is the index of the head of the remaining list `xs`. -/
def maxRawIdxAux : List ℚ → ℚ → Nat → Nat → Nat
  | [], _, k, _ => k
  | x :: xs, v, k, i =>
    if v < x then maxRawIdxAux xs x i (i + 1)
    else maxRawIdxAux xs v k (i + 1)

/-- Lines 164–168: index of the first occurrence of the largest raw share. -/
def maxRawIdx : List ℚ → Nat
  | [] => 0
  | x :: xs => maxRawIdxAux xs x 0 1

/-- Line 169: `rounded[i].amount = Math.round((rounded[i].amount + diff) * 100) / 100`. -/
def adjustAt (l : List RoundedShare) (i : Nat) (diff : ℚ) : List RoundedShare :=
  match l.get? i with
  | none => l
  | some r => l.set i ⟨r.investor_id, roundCents (r.amount + diff)⟩

/-- Lines 153–170: the full pure allocation pipeline of `distribute`:
raw proration, independent rounding, and largest-share reconciliation. -/
def computeAdjusted (revenueAmount : ℚ) (balances : List BalanceRow) :
    List RoundedShare :=
  let raws := rawSharesOf revenueAmount balances
  let rounded := roundedOf raws
  let diff := diffOf revenueAmount raws
  if 1/100 ≤ |diff| then
    adjustAt rounded (maxRawIdx (raws.map RawShare.raw)) diff
  else rounded

/-- `DistributionEngine.distribute` (lines 120–192), with the balance
source's reply passed in as `balances` and the store-assigned run id as
`runId`.  Returns the result (or the thrown error) together with the
ordered trace of external calls performed. -/
def distribute (runId : Nat) (offeringId : String) (period : Period)
    (revenueAmount : ℚ) (balances : List BalanceRow) :
    Except DistError DistributionResult × List ExtCall :=
  if revenueAmount ≤ 0 then (.error .invalidAmount, [])
  else
    let acq : List ExtCall := [.getBalances offeringId period]
    if balances.isEmpty then (.error .noInvestors, acq)
    else if totalBalanceOf balances ≤ 0 then (.error .zeroTotalBalance, acq)
    else
      let adjusted := computeAdjusted revenueAmount balances
      let run : DistributionRun :=
        ⟨runId, offeringId, toFixed2 revenueAmount, period.«end»⟩
      let payouts := adjusted.map fun r =>
        Payout.mk runId r.investor_id (toFixed2 r.amount)
      (.ok ⟨run, payouts⟩,
        acq ++ [.createDistributionRun offeringId (toFixed2 revenueAmount) period.«end»]
            ++ payouts.map fun p =>
                .createPayout p.distribution_run_id p.investor_id p.amount)

/-- Round to 2 decimal places with ties away from zero — the rounding mode
named by the specification (spec-side definition, compared against the
engine's `roundCents` on the engine's actual inputs). -/
def roundHalfAwayFromZero (x : ℚ) : ℚ :=
  if 0 ≤ x then ((⌊x * 100 + 1/2⌋ : ℤ) : ℚ) / 100
  else -(((⌊-x * 100 + 1/2⌋ : ℤ) : ℚ) / 100)

/-- Whether a character is a decimal digit. -/
def isDigitChar (c : Char) : Bool :=
  decide (48 ≤ c.toNat) && decide (c.toNat ≤ 57)

/-- Whether a string is written with exactly two decimal places: it ends in
`'.'` followed by exactly two digits, and has no other decimal point. -/
def twoDecimalsB (s : String) : Bool :=
  match s.data.reverse with
  | d0 :: d1 :: c :: rest =>
    isDigitChar d0 && isDigitChar d1 && (c == '.') && rest.all fun ch => !(ch == '.')
  | _ => false

/-! ### Basic lemmas about the arithmetic helpers -/

theorem foldl_add_map {α : Type} (f : α → ℚ) (l : List α) (a : ℚ) :
    l.foldl (fun s x => s + f x) a = a + (l.map f).sum := by
  induction l generalizing a with
  | nil => simp
  | cons x xs ih => simp [ih, add_assoc]

theorem totalBalanceOf_eq (bs : List BalanceRow) :
    totalBalanceOf bs = (bs.map BalanceRow.balance).sum := by
  simpa using foldl_add_map BalanceRow.balance bs 0

theorem amountSum_eq (l : List RoundedShare) :
    amountSum l = (l.map RoundedShare.amount).sum := by
  simpa using foldl_add_map RoundedShare.amount l 0

theorem jsRound_intCast (n : ℤ) : jsRound (n : ℚ) = n := by
  have h : ⌊(1/2 : ℚ)⌋ = 0 := by
    rw [Int.floor_eq_zero_iff, Set.mem_Ico]
    norm_num
  rw [jsRound, Int.floor_int_add, h, add_zero]

theorem jsRound_add_int (x : ℚ) (n : ℤ) : jsRound (x + n) = jsRound x + n := by
  rw [jsRound, jsRound, add_right_comm x (n : ℚ) (1/2), Int.floor_add_int]

theorem jsRound_sub_int (x : ℚ) (n : ℤ) : jsRound (x - n) = jsRound x - n := by
  have h := jsRound_add_int x (-n)
  push_cast at h
  rw [← sub_eq_add_neg] at h
  rw [h]
  ring

theorem cents_div100 (n : ℤ) : cents ((n : ℚ) / 100) = n := by
  have h : ((n : ℚ) / 100) * 100 = (n : ℚ) := by
    field_simp
  rw [cents, h, jsRound_intCast]

theorem roundCents_div100 (n : ℤ) : roundCents ((n : ℚ) / 100) = (n : ℚ) / 100 := by
  rw [roundCents, cents_div100]

theorem roundCents_nonneg (x : ℚ) (hx : 0 ≤ x) : 0 ≤ roundCents x := by
  have h : (0 : ℤ) ≤ cents x := by
    rw [cents, jsRound]
    exact Int.le_floor.mpr (by push_cast; linarith)
  rw [roundCents]
  positivity

/-- The integer number of cents each provisional rounded share carries. -/
def centsList (raws : List RawShare) : List ℤ :=
  raws.map fun r => cents r.raw

theorem sum_map_div_hundred (cs : List ℤ) :
    (cs.map fun c => ((c : ℤ) : ℚ) / 100).sum = ((cs.sum : ℤ) : ℚ) / 100 := by
  induction cs with
  | nil => simp
  | cons c cs ih =>
    simp only [List.map_cons, List.sum_cons, ih, List.sum_cons]
    push_cast
    ring

theorem roundedOf_map_amount (raws : List RawShare) :
    (roundedOf raws).map RoundedShare.amount =
      (centsList raws).map fun c => ((c : ℤ) : ℚ) / 100 := by
  simp [roundedOf, centsList, roundCents, List.map_map]

theorem amountSum_roundedOf (raws : List RawShare) :
    amountSum (roundedOf raws) = (((centsList raws).sum : ℤ) : ℚ) / 100 := by
  rw [amountSum_eq, roundedOf_map_amount, sum_map_div_hundred]

theorem cents_sub_int (r : ℚ) (M : ℤ) : cents (r - (M : ℚ) / 100) = cents r - M := by
  rw [cents, cents, sub_mul, div_mul_cancel₀ _ (by norm_num : (100 : ℚ) ≠ 0),
    jsRound_sub_int]

theorem diffOf_eq (r : ℚ) (raws : List RawShare) :
    diffOf r raws = ((cents r - (centsList raws).sum : ℤ) : ℚ) / 100 := by
  rw [diffOf, amountSum_roundedOf, roundCents, cents_sub_int]

/-! ### The argmax loop -/

theorem maxRawIdxAux_spec (xs : List ℚ) : ∀ (v : ℚ) (k i : Nat),
    (maxRawIdxAux xs v k i = k ∧ ∀ x ∈ xs, x ≤ v) ∨
    (∃ j : Nat, ∃ hj : j < xs.length,
      maxRawIdxAux xs v k i = i + j ∧ v < xs[j] ∧
      (∀ j' : Nat, ∀ hj' : j' < xs.length, xs[j'] ≤ xs[j]) ∧
      (∀ j' : Nat, ∀ hj' : j' < xs.length, j' < j → xs[j'] < xs[j])) := by
  induction xs with
  | nil =>
    intro v k i
    left
    exact ⟨rfl, by simp⟩
  | cons x rest ih =>
    intro v k i
    rw [maxRawIdxAux]
    by_cases hvx : v < x
    · rw [if_pos hvx]
      rcases ih x i (i + 1) with ⟨hm, hall⟩ | ⟨j, hj, hm, hlt, hmax, hfirst⟩
      · right
        refine ⟨0, by simp, by simpa using hm, by simpa using hvx, ?_, ?_⟩
        · intro j' hj'
          cases j' with
          | zero => simp
          | succ n =>
            simp only [List.getElem_cons_succ, List.getElem_cons_zero]
            exact hall _ (List.getElem_mem _)
        · intro j' hj' hj0
          exact absurd hj0 (Nat.not_lt_zero j')
      · right
        have hj1 : j + 1 < (x :: rest).length := by
          simp only [List.length_cons]
          omega
        refine ⟨j + 1, hj1, by rw [hm]; omega, ?_, ?_, ?_⟩
        · simp only [List.getElem_cons_succ]
          exact lt_trans hvx hlt
        · intro j' hj'
          cases j' with
          | zero =>
            simp only [List.getElem_cons_succ, List.getElem_cons_zero]
            exact le_of_lt hlt
          | succ n =>
            simp only [List.getElem_cons_succ]
            exact hmax n (by simpa using hj')
        · intro j' hj' hlt'
          cases j' with
          | zero =>
            simp only [List.getElem_cons_succ, List.getElem_cons_zero]
            exact hlt
          | succ n =>
            simp only [List.getElem_cons_succ]
            exact hfirst n (by simpa using hj') (by omega)
    · rw [if_neg hvx]
      rcases ih v k (i + 1) with ⟨hm, hall⟩ | ⟨j, hj, hm, hlt, hmax, hfirst⟩
      · left
        refine ⟨hm, ?_⟩
        intro y hy
        rcases List.mem_cons.mp hy with rfl | hy'
        · exact le_of_not_lt hvx
        · exact hall y hy'
      · right
        have hj1 : j + 1 < (x :: rest).length := by
          simp only [List.length_cons]
          omega
        refine ⟨j + 1, hj1, by rw [hm]; omega, ?_, ?_, ?_⟩
        · simp only [List.getElem_cons_succ]
          exact hlt
        · intro j' hj'
          cases j' with
          | zero =>
            simp only [List.getElem_cons_succ, List.getElem_cons_zero]
            exact le_of_lt (lt_of_le_of_lt (le_of_not_lt hvx) hlt)
          | succ n =>
            simp only [List.getElem_cons_succ]
            exact hmax n (by simpa using hj')
        · intro j' hj' hlt'
          cases j' with
          | zero =>
            simp only [List.getElem_cons_succ, List.getElem_cons_zero]
            exact lt_of_le_of_lt (le_of_not_lt hvx) hlt
          | succ n =>
            simp only [List.getElem_cons_succ]
            exact hfirst n (by simpa using hj') (by omega)

theorem maxRawIdx_lt_length (l : List ℚ) (h : l ≠ []) : maxRawIdx l < l.length := by
  match l with
  | [] => exact absurd rfl h
  | x :: xs =>
    rw [maxRawIdx]
    rcases maxRawIdxAux_spec xs x 0 1 with ⟨hm, _⟩ | ⟨j, hj, hm, _, _, _⟩
    · simp [hm]
    · rw [hm]
      simp only [List.length_cons]
      omega

theorem maxRawIdx_maximal {l : List ℚ} {j : Nat} {a b : ℚ}
    (ha : l.get? j = some a) (hb : l.get? (maxRawIdx l) = some b) : a ≤ b := by
  match l with
  | [] => exact absurd ha (by simp)
  | x :: xs =>
    rcases maxRawIdxAux_spec xs x 0 1 with ⟨hm, hall⟩ | ⟨j0, hj0, hm, hlt, hmax, _⟩
    · have hm0 : maxRawIdx (x :: xs) = 0 := by rw [maxRawIdx, hm]
      rw [hm0, List.get?_cons_zero] at hb
      cases Option.some_inj.mp hb
      cases j with
      | zero =>
        rw [List.get?_cons_zero] at ha
        cases Option.some_inj.mp ha
        exact le_refl _
      | succ n =>
        rw [List.get?_cons_succ] at ha
        obtain ⟨hn, hget⟩ := List.get?_eq_some.mp ha
        cases hget
        exact hall _ (List.get_mem xs n hn)
    · have hm0 : maxRawIdx (x :: xs) = j0 + 1 := by rw [maxRawIdx, hm]; omega
      rw [hm0, List.get?_cons_succ, List.get?_eq_get hj0] at hb
      cases Option.some_inj.mp hb
      cases j with
      | zero =>
        rw [List.get?_cons_zero] at ha
        cases Option.some_inj.mp ha
        simpa [List.get_eq_getElem] using le_of_lt hlt
      | succ n =>
        rw [List.get?_cons_succ] at ha
        obtain ⟨hn, hget⟩ := List.get?_eq_some.mp ha
        cases hget
        simpa [List.get_eq_getElem] using hmax n hn

theorem maxRawIdx_earliest {l : List ℚ} {j : Nat} {a b : ℚ}
    (hjm : j < maxRawIdx l) (ha : l.get? j = some a)
    (hb : l.get? (maxRawIdx l) = some b) : a < b := by
  match l with
  | [] => exact absurd ha (by simp)
  | x :: xs =>
    rcases maxRawIdxAux_spec xs x 0 1 with ⟨hm, _⟩ | ⟨j0, hj0, hm, hlt, _, hfirst⟩
    · have hm0 : maxRawIdx (x :: xs) = 0 := by rw [maxRawIdx, hm]
      rw [hm0] at hjm
      exact absurd hjm (Nat.not_lt_zero j)
    · have hm0 : maxRawIdx (x :: xs) = j0 + 1 := by rw [maxRawIdx, hm]; omega
      rw [hm0] at hjm
      rw [hm0, List.get?_cons_succ, List.get?_eq_get hj0] at hb
      cases Option.some_inj.mp hb
      cases j with
      | zero =>
        rw [List.get?_cons_zero] at ha
        cases Option.some_inj.mp ha
        simpa [List.get_eq_getElem] using hlt
      | succ n =>
        rw [List.get?_cons_succ] at ha
        obtain ⟨hn, hget⟩ := List.get?_eq_some.mp ha
        cases hget
        simpa [List.get_eq_getElem] using hfirst n hn (by omega)

/-! ### Setting a list element -/

theorem set_get_self {α : Type} : ∀ (l : List α) (i : Nat) (h : i < l.length),
    l.set i (l.get ⟨i, h⟩) = l := by
  intro l
  induction l with
  | nil => intro i h; simp at h
  | cons x xs ih =>
    intro i h
    match i with
    | 0 => rfl
    | i' + 1 => simpa using ih i' (by simpa using h)

theorem adjustAt_of_lt (l : List RoundedShare) (i : Nat) (h : i < l.length) (d : ℚ) :
    adjustAt l i d =
      l.set i ⟨(l.get ⟨i, h⟩).investor_id, roundCents ((l.get ⟨i, h⟩).amount + d)⟩ := by
  rw [adjustAt, List.get?_eq_get h]

theorem adjustAt_map_investor (l : List RoundedShare) (i : Nat) (d : ℚ) :
    (adjustAt l i d).map RoundedShare.investor_id = l.map RoundedShare.investor_id := by
  rw [adjustAt]
  match hg : l.get? i with
  | none => rfl
  | some r =>
    obtain ⟨hi, hget⟩ := List.get?_eq_some.mp hg
    rw [List.map_set]
    have h2 : RoundedShare.investor_id ⟨r.investor_id, roundCents (r.amount + d)⟩ =
        (l.map RoundedShare.investor_id).get ⟨i, by simpa using hi⟩ := by
      rw [← hget]
      simp [List.get_eq_getElem, List.getElem_map]
    rw [h2]
    exact set_get_self _ i _

/-! ### Sum conservation of the allocation pipeline -/

theorem length_rawSharesOf (r : ℚ) (bs : List BalanceRow) :
    (rawSharesOf r bs).length = bs.length := by
  simp [rawSharesOf]

theorem length_roundedOf (raws : List RawShare) :
    (roundedOf raws).length = raws.length := by
  simp [roundedOf]

theorem computeAdjusted_def (r : ℚ) (bs : List BalanceRow) :
    computeAdjusted r bs =
      if 1/100 ≤ |diffOf r (rawSharesOf r bs)| then
        adjustAt (roundedOf (rawSharesOf r bs))
          (maxRawIdx ((rawSharesOf r bs).map RawShare.raw))
          (diffOf r (rawSharesOf r bs))
      else roundedOf (rawSharesOf r bs) := rfl

theorem rawSharesOf_ne_nil (r : ℚ) (bs : List BalanceRow) (hne : bs ≠ []) :
    rawSharesOf r bs ≠ [] := by
  cases bs with
  | nil => exact absurd rfl hne
  | cons b bs' => simp [rawSharesOf]

/-- After reconciliation the amounts always add up to `revenueAmount` rounded
to cents — for every non-empty weight list, whatever the balances are. -/
theorem amountSum_computeAdjusted (r : ℚ) (bs : List BalanceRow) (hne : bs ≠ []) :
    amountSum (computeAdjusted r bs) = roundCents r := by
  set raws := rawSharesOf r bs with hraws
  have hrne : raws ≠ [] := rawSharesOf_ne_nil r bs hne
  set M : ℤ := (centsList raws).sum with hM
  set K : ℤ := cents r with hK
  have hrc : roundCents r = ((K : ℤ) : ℚ) / 100 := rfl
  rw [computeAdjusted_def, ← hraws]
  by_cases hd : 1/100 ≤ |diffOf r raws|
  · rw [if_pos hd]
    set m := maxRawIdx (raws.map RawShare.raw) with hm
    have hmr : m < raws.length := by
      have := maxRawIdx_lt_length (raws.map RawShare.raw) (by simpa using hrne)
      simpa using this
    have hmlt : m < (roundedOf raws).length := by
      rw [length_roundedOf]
      exact hmr
    rw [adjustAt_of_lt _ _ hmlt, amountSum_eq, List.map_set, roundedOf_map_amount]
    have hmc : m < ((centsList raws).map fun c => ((c : ℤ) : ℚ) / 100).length := by
      simpa [centsList] using hmr
    rw [List.sum_set', dif_pos hmc]
    have hmcl : m < (centsList raws).length := by simpa [centsList] using hmr
    have e1 : ((centsList raws).map fun c => ((c : ℤ) : ℚ) / 100).sum =
        ((M : ℤ) : ℚ) / 100 := by
      rw [sum_map_div_hundred]
    have e2 : ((centsList raws).map fun c => ((c : ℤ) : ℚ) / 100)[m] =
        (((centsList raws)[m] : ℤ) : ℚ) / 100 := by
      rw [List.getElem_map]
    have e3 : (centsList raws)[m] = cents raws[m].raw := by
      simp [centsList]
    have e4 : ((roundedOf raws).get ⟨m, hmlt⟩).amount =
        ((cents raws[m].raw : ℤ) : ℚ) / 100 := by
      simp [roundedOf, List.get_eq_getElem, List.getElem_map, roundCents]
    have e5 : ((cents raws[m].raw : ℤ) : ℚ) / 100 + diffOf r raws =
        ((cents raws[m].raw + K - M : ℤ) : ℚ) / 100 := by
      rw [diffOf_eq, ← hM, ← hK]
      push_cast
      ring
    simp only [e1, e2, e3, e4]
    rw [e5, roundCents_div100, hrc]
    push_cast
    ring
  · rw [if_neg hd]
    have hdlt : |diffOf r raws| < 1/100 := not_le.mp hd
    rw [diffOf_eq, ← hM, ← hK] at hdlt
    have h1 : |((K - M : ℤ) : ℚ)| < 1 := by
      rw [abs_div, abs_of_pos (by norm_num : (0:ℚ) < 100)] at hdlt
      linarith
    have h2 : |K - M| < 1 := by
      rw [← Int.cast_abs] at h1
      exact_mod_cast h1
    obtain ⟨hl, hr⟩ := abs_lt.mp h2
    have h3 : K = M := by omega
    rw [amountSum_roundedOf, ← hM, hrc, h3]

/-! ### Shape of a successful `distribute` call -/

theorem distribute_ok (runId : Nat) (offeringId : String) (period : Period)
    (r : ℚ) (bs : List BalanceRow)
    (hr : 0 < r) (hne : bs ≠ []) (htot : 0 < totalBalanceOf bs) :
    distribute runId offeringId period r bs =
      (.ok ⟨⟨runId, offeringId, toFixed2 r, period.«end»⟩,
        (computeAdjusted r bs).map fun sh =>
          Payout.mk runId sh.investor_id (toFixed2 sh.amount)⟩,
       [.getBalances offeringId period,
        .createDistributionRun offeringId (toFixed2 r) period.«end»] ++
         ((computeAdjusted r bs).map fun sh =>
           ExtCall.createPayout runId sh.investor_id (toFixed2 sh.amount))) := by
  cases bs with
  | nil => exact absurd rfl hne
  | cons b bs' =>
    rw [distribute, if_neg (not_le.mpr hr)]
    have hie : (b :: bs').isEmpty = false := rfl
    rw [hie]
    simp only [Bool.false_eq_true, if_false, if_neg (not_le.mpr htot), List.map_map]
    rfl

theorem length_adjustAt (l : List RoundedShare) (i : Nat) (d : ℚ) :
    (adjustAt l i d).length = l.length := by
  rw [adjustAt]
  cases l.get? i with
  | none => rfl
  | some r => exact List.length_set l i _

theorem length_computeAdjusted (r : ℚ) (bs : List BalanceRow) :
    (computeAdjusted r bs).length = bs.length := by
  rw [computeAdjusted_def]
  split
  · rw [length_adjustAt, length_roundedOf, length_rawSharesOf]
  · rw [length_roundedOf, length_rawSharesOf]

theorem computeAdjusted_map_investor (r : ℚ) (bs : List BalanceRow) :
    (computeAdjusted r bs).map RoundedShare.investor_id =
      bs.map BalanceRow.investor_id := by
  have base : (roundedOf (rawSharesOf r bs)).map RoundedShare.investor_id =
      bs.map BalanceRow.investor_id := by
    simp [roundedOf, rawSharesOf, List.map_map]
  rw [computeAdjusted_def]
  split
  · rw [adjustAt_map_investor, base]
  · exact base

/-! ### `toFixed2` facts -/

theorem toFixed2_of_nonneg (q : ℚ) (hq : 0 ≤ q) :
    toFixed2 q = String.mk (centsChars (cents q).toNat) := by
  rw [toFixed2, if_neg (not_lt.mpr hq)]
  rfl

theorem cents_roundCents (q : ℚ) : cents (roundCents q) = cents q := by
  rw [roundCents, cents_div100]

theorem toFixed2_roundCents (q : ℚ) (hq : 0 ≤ q) :
    toFixed2 (roundCents q) = toFixed2 q := by
  rw [toFixed2_of_nonneg _ (roundCents_nonneg q hq), toFixed2_of_nonneg _ hq,
    cents_roundCents]

theorem isDigitChar_digitChar (n : Nat) : isDigitChar (digitChar n) = true := by
  rw [digitChar]
  have h : n % 10 < 10 := Nat.mod_lt _ (by norm_num)
  set k := n % 10 with hk
  interval_cases k <;> decide

theorem beq_dot_eq_false_of_isDigit (c : Char) (h : isDigitChar c = true) :
    (c == '.') = false := by
  cases hb : c == '.'
  · rfl
  · exfalso
    have hc : c = '.' := eq_of_beq hb
    subst hc
    exact absurd h (by decide)

theorem natDigitsAux_digits : ∀ (fuel n : Nat) (c : Char),
    c ∈ natDigitsAux fuel n → isDigitChar c = true := by
  intro fuel
  induction fuel with
  | zero => intro n c hc; simp [natDigitsAux] at hc
  | succ f ih =>
    intro n c hc
    rw [natDigitsAux] at hc
    by_cases h : n = 0
    · rw [if_pos h] at hc
      simp at hc
    · rw [if_neg h] at hc
      rcases List.mem_append.mp hc with h1 | h2
      · exact ih _ _ h1
      · rw [List.mem_singleton] at h2
        subst h2
        exact isDigitChar_digitChar _

theorem natDigits_digits (n : Nat) (c : Char) (hc : c ∈ natDigits n) :
    isDigitChar c = true := by
  rw [natDigits] at hc
  by_cases h : n = 0
  · rw [if_pos h, List.mem_singleton] at hc
    subst hc
    decide
  · rw [if_neg h] at hc
    exact natDigitsAux_digits n n c hc

theorem twoDecimalsB_mk (body : List Char) (d1 d0 : Char)
    (hd1 : isDigitChar d1 = true) (hd0 : isDigitChar d0 = true)
    (hbody : ∀ c ∈ body, (c == '.') = false) :
    twoDecimalsB (String.mk (body ++ ['.', d1, d0])) = true := by
  have hrev : (body ++ ['.', d1, d0]).reverse = d0 :: d1 :: '.' :: body.reverse := by
    simp
  rw [twoDecimalsB]
  simp only [String.data]
  rw [hrev]
  simp only [hd0, hd1, Bool.true_and, beq_self_eq_true, List.all_eq_true,
    List.mem_reverse, Bool.not_eq_eq_eq_not, Bool.not_true]
  intro c hc
  simpa using hbody c hc

theorem twoDecimalsB_toFixed2 (q : ℚ) : twoDecimalsB (toFixed2 q) = true := by
  rw [toFixed2]
  by_cases h : q < 0
  · rw [if_pos h]
    have hsplit : '-' :: centsChars (jsRound (-q * 100)).toNat =
        ('-' :: natDigits ((jsRound (-q * 100)).toNat / 100)) ++
          ['.', digitChar ((jsRound (-q * 100)).toNat % 100 / 10),
            digitChar ((jsRound (-q * 100)).toNat % 100 % 10)] := by
      rw [centsChars, List.cons_append]
    rw [hsplit]
    apply twoDecimalsB_mk _ _ _ (isDigitChar_digitChar _) (isDigitChar_digitChar _)
    intro c hc
    rcases List.mem_cons.mp hc with rfl | hc'
    · decide
    · exact beq_dot_eq_false_of_isDigit c (natDigits_digits _ c hc')
  · rw [if_neg h, centsChars]
    apply twoDecimalsB_mk _ _ _ (isDigitChar_digitChar _) (isDigitChar_digitChar _)
    intro c hc
    exact beq_dot_eq_false_of_isDigit c (natDigits_digits _ c hc)

/-! ### Pointwise facts about the pipeline -/

theorem rawSharesOf_nonneg (r : ℚ) (bs : List BalanceRow) (hr : 0 ≤ r)
    (hb : ∀ b ∈ bs, 0 ≤ b.balance) (htot : 0 ≤ totalBalanceOf bs) :
    ∀ s ∈ rawSharesOf r bs, 0 ≤ s.raw := by
  intro s hs
  rw [rawSharesOf] at hs
  obtain ⟨b, hbmem, rfl⟩ := List.mem_map.mp hs
  exact mul_nonneg (div_nonneg (hb b hbmem) htot) hr

theorem roundedOf_nonneg (raws : List RawShare) (h : ∀ s ∈ raws, 0 ≤ s.raw) :
    ∀ t ∈ roundedOf raws, 0 ≤ t.amount := by
  intro t ht
  rw [roundedOf] at ht
  obtain ⟨s, hsmem, rfl⟩ := List.mem_map.mp ht
  exact roundCents_nonneg s.raw (h s hsmem)

theorem roundedOf_get? (raws : List RawShare) (j : Nat) :
    (roundedOf raws).get? j =
      (raws.get? j).map fun s => RoundedShare.mk s.investor_id (roundCents s.raw) := by
  rw [roundedOf, List.get?_map]

theorem computeAdjusted_get?_ne (r : ℚ) (bs : List BalanceRow) (j : Nat)
    (hj : j ≠ maxRawIdx ((rawSharesOf r bs).map RawShare.raw)) :
    (computeAdjusted r bs).get? j = (roundedOf (rawSharesOf r bs)).get? j := by
  rw [computeAdjusted_def]
  split
  · rw [adjustAt]
    cases hg : (roundedOf (rawSharesOf r bs)).get?
        (maxRawIdx ((rawSharesOf r bs).map RawShare.raw)) with
    | none => rfl
    | some s => exact List.get?_set_ne _ _ (Ne.symm hj)
  · rfl

theorem roundCents_add_cents (a b : ℤ) :
    roundCents (((a : ℤ) : ℚ) / 100 + ((b : ℤ) : ℚ) / 100) =
      ((a : ℤ) : ℚ) / 100 + ((b : ℤ) : ℚ) / 100 := by
  have h : ((a : ℚ)) / 100 + ((b : ℚ)) / 100 = (((a + b : ℤ)) : ℚ) / 100 := by
    push_cast
    ring
  rw [h, roundCents_div100]

/-- At the adjusted index the entire rounded residual is added, and the
second rounding at line 169 does not change the value. -/
theorem computeAdjusted_get?_max (r : ℚ) (bs : List BalanceRow) (hne : bs ≠ [])
    (hd : 1/100 ≤ |diffOf r (rawSharesOf r bs)|) :
    (computeAdjusted r bs).get? (maxRawIdx ((rawSharesOf r bs).map RawShare.raw)) =
      ((roundedOf (rawSharesOf r bs)).get?
          (maxRawIdx ((rawSharesOf r bs).map RawShare.raw))).map
        fun sh => RoundedShare.mk sh.investor_id
          (sh.amount + diffOf r (rawSharesOf r bs)) := by
  set raws := rawSharesOf r bs with hraws
  have hrne : raws ≠ [] := rawSharesOf_ne_nil r bs hne
  set m := maxRawIdx (raws.map RawShare.raw) with hm
  have hmr : m < raws.length := by
    have := maxRawIdx_lt_length (raws.map RawShare.raw) (by simpa using hrne)
    simpa using this
  have hmlt : m < (roundedOf raws).length := by
    rw [length_roundedOf]
    exact hmr
  rw [computeAdjusted_def, ← hraws, ← hm, if_pos hd, adjustAt_of_lt _ _ hmlt,
    List.get?_set_eq, List.get?_eq_get hmlt]
  have hamt : ((roundedOf raws).get ⟨m, hmlt⟩).amount =
      ((cents raws[m].raw : ℤ) : ℚ) / 100 := by
    simp [roundedOf, List.get_eq_getElem, List.getElem_map, roundCents]
  have hdiff : diffOf r raws =
      ((cents r - (centsList raws).sum : ℤ) : ℚ) / 100 := diffOf_eq r raws
  simp only [Option.map_some]
  congr 1
  · congr 1
    rw [hamt, hdiff, roundCents_add_cents]

/-! ### Concrete inputs used by witnesses and counterexamples -/

/-- The spec's two-party example: balances 70 / 30. -/
def twoParty : List BalanceRow := [⟨"i1", 70⟩, ⟨"i2", 30⟩]

/-- The spec's three-way equal-split example: three balances of 1. -/
def threeEqual : List BalanceRow := [⟨"i1", 1⟩, ⟨"i2", 1⟩, ⟨"i3", 1⟩]

/-- Ten investors with balance 1 each. -/
def tenEqual : List BalanceRow :=
  [⟨"i1", 1⟩, ⟨"i2", 1⟩, ⟨"i3", 1⟩, ⟨"i4", 1⟩, ⟨"i5", 1⟩,
   ⟨"i6", 1⟩, ⟨"i7", 1⟩, ⟨"i8", 1⟩, ⟨"i9", 1⟩, ⟨"i10", 1⟩]

/-! ### The claims -/

/-- C1: Sum conservation — for every strictly positive `revenueAmount` and
every non-empty balance-weight list whose balances sum to a value > 0, a
successful `distribute` returns payouts whose amounts sum exactly (as
fixed-point 2-decimal values) to `revenueAmount`, and equally to the created
Distribution Run's `totalAmount`.  The payout amounts are the 2-decimal
renderings of the adjusted shares; their sum renders identically to the
run's `totalAmount`, and equals `revenueAmount` itself exactly whenever
`revenueAmount` is a fixed-point 2-decimal value `k/100`. -/
theorem distribute_sum_conservation (runId : Nat) (offeringId : String)
    (period : Period) (r : ℚ) (bs : List BalanceRow)
    (hr : 0 < r) (hne : bs ≠ []) (htot : 0 < totalBalanceOf bs) :
    (distribute runId offeringId period r bs).1 =
      .ok ⟨⟨runId, offeringId, toFixed2 r, period.«end»⟩,
        (computeAdjusted r bs).map fun sh =>
          Payout.mk runId sh.investor_id (toFixed2 sh.amount)⟩ ∧
    toFixed2 (amountSum (computeAdjusted r bs)) = toFixed2 r ∧
    (∀ k : ℤ, r = (k : ℚ) / 100 → amountSum (computeAdjusted r bs) = r) := by
  refine ⟨?_, ?_, ?_⟩
  · rw [distribute_ok runId offeringId period r bs hr hne htot]
  · rw [amountSum_computeAdjusted r bs hne, toFixed2_roundCents r (le_of_lt hr)]
  · intro k hk
    rw [amountSum_computeAdjusted r bs hne, hk, roundCents_div100]

/-- C1 witness: the spec's two-party example, balances 70/30 and
`revenueAmount = 100`: the adjusted shares sum to exactly 100. -/
theorem distribute_sum_conservation_witness :
    amountSum (computeAdjusted 100 twoParty) = 100 :=
  (distribute_sum_conservation 1 "off-1" ⟨0, 1⟩ 100 twoParty (by decide)
      (by decide) (by decide)).2.2 10000 (by decide)

/-- C2 counterexample: ten investors of balance 1 each and
`revenueAmount = 0.05` satisfy every hypothesis of the claim (positive
amount, non-empty weights, all balances ≥ 0, positive total), yet the
reconciliation drives the first payout to `-0.04`, which is negative — so
"every returned payout amount is ≥ 0" is false on the code. -/
theorem distribute_payout_nonneg_counterexample :
    (0 : ℚ) < 1/20 ∧ tenEqual ≠ [] ∧ (∀ b ∈ tenEqual, 0 ≤ b.balance) ∧
    0 < totalBalanceOf tenEqual ∧
    ¬ (∀ sh ∈ computeAdjusted (1/20) tenEqual, 0 ≤ sh.amount) ∧
    ((distribute 1 "off-1" ⟨0, 1⟩ (1/20) tenEqual).1.map fun res =>
        res.payouts.map Payout.amount) =
      .ok ["-0.04", "0.01", "0.01", "0.01", "0.01", "0.01", "0.01", "0.01",
        "0.01", "0.01"] := by
  refine ⟨by decide, by decide, by decide, by decide, by decide, by decide⟩

/-- C2 (amended): for every successful `distribute` call with all balances
≥ 0, every payout amount is formatted with exactly 2 decimal places, every
provisional rounded share is ≥ 0, and every payout other than (possibly)
the single reconciliation-adjusted one is ≥ 0; the adjusted payout itself
can be negative. -/
theorem distribute_payout_nonneg_amended (runId : Nat) (offeringId : String)
    (period : Period) (r : ℚ) (bs : List BalanceRow)
    (hr : 0 < r) (hne : bs ≠ []) (hb : ∀ b ∈ bs, 0 ≤ b.balance)
    (htot : 0 < totalBalanceOf bs) :
    (distribute runId offeringId period r bs).1 =
      .ok ⟨⟨runId, offeringId, toFixed2 r, period.«end»⟩,
        (computeAdjusted r bs).map fun sh =>
          Payout.mk runId sh.investor_id (toFixed2 sh.amount)⟩ ∧
    (∀ sh ∈ computeAdjusted r bs, twoDecimalsB (toFixed2 sh.amount) = true) ∧
    (∀ sh ∈ roundedOf (rawSharesOf r bs), 0 ≤ sh.amount) ∧
    (∀ j, j ≠ maxRawIdx ((rawSharesOf r bs).map RawShare.raw) →
      ∀ sh, (computeAdjusted r bs).get? j = some sh → 0 ≤ sh.amount) := by
  have hnn : ∀ sh ∈ roundedOf (rawSharesOf r bs), 0 ≤ sh.amount :=
    roundedOf_nonneg _ (rawSharesOf_nonneg r bs (le_of_lt hr) hb (le_of_lt htot))
  refine ⟨?_, ?_, hnn, ?_⟩
  · rw [distribute_ok runId offeringId period r bs hr hne htot]
  · intro sh _
    exact twoDecimalsB_toFixed2 sh.amount
  · intro j hj sh hsh
    rw [computeAdjusted_get?_ne r bs j hj] at hsh
    exact hnn sh (List.get?_mem hsh)

/-- C2 witness (amended claim): at the counterexample input itself the call
succeeds with the expected shape, and the non-adjusted share at index 1
(worth one cent) is non-negative. -/
theorem distribute_payout_nonneg_amended_witness :
    (distribute 1 "off-1" ⟨0, 1⟩ (1/20) tenEqual).1 =
      .ok ⟨⟨1, "off-1", toFixed2 (1/20), 1⟩,
        (computeAdjusted (1/20) tenEqual).map fun sh =>
          Payout.mk 1 sh.investor_id (toFixed2 sh.amount)⟩ ∧
    (0 : ℚ) ≤ (RoundedShare.mk "i2" (1/100 : ℚ)).amount :=
  ⟨(distribute_payout_nonneg_amended 1 "off-1" ⟨0, 1⟩ (1/20) tenEqual
      (by decide) (by decide) (by decide) (by decide)).1,
   (distribute_payout_nonneg_amended 1 "off-1" ⟨0, 1⟩ (1/20) tenEqual
      (by decide) (by decide) (by decide) (by decide)).2.2.2 1 (by decide)
     (RoundedShare.mk "i2" (1/100 : ℚ)) (by decide)⟩

/-- C3: Largest-share reconciliation — on a successful call whose rounded
residual satisfies `|diff| ≥ 0.01`, the reconciliation index is in range,
the whole `diff` is added to the payout at that index, and that index is
the position of the largest raw share, earliest on ties: every raw share
is ≤ the one at the chosen index, and every earlier raw share is strictly
smaller. -/
theorem distribute_largest_share_reconciliation (runId : Nat)
    (offeringId : String) (period : Period) (r : ℚ) (bs : List BalanceRow)
    (hr : 0 < r) (hne : bs ≠ []) (htot : 0 < totalBalanceOf bs)
    (hd : 1/100 ≤ |diffOf r (rawSharesOf r bs)|) :
    (distribute runId offeringId period r bs).1 =
      .ok ⟨⟨runId, offeringId, toFixed2 r, period.«end»⟩,
        (computeAdjusted r bs).map fun sh =>
          Payout.mk runId sh.investor_id (toFixed2 sh.amount)⟩ ∧
    maxRawIdx ((rawSharesOf r bs).map RawShare.raw) < bs.length ∧
    (computeAdjusted r bs).get? (maxRawIdx ((rawSharesOf r bs).map RawShare.raw)) =
      ((roundedOf (rawSharesOf r bs)).get?
          (maxRawIdx ((rawSharesOf r bs).map RawShare.raw))).map
        (fun sh => RoundedShare.mk sh.investor_id
          (sh.amount + diffOf r (rawSharesOf r bs))) ∧
    (∀ j a b, ((rawSharesOf r bs).map RawShare.raw).get? j = some a →
      ((rawSharesOf r bs).map RawShare.raw).get?
        (maxRawIdx ((rawSharesOf r bs).map RawShare.raw)) = some b → a ≤ b) ∧
    (∀ j a b, j < maxRawIdx ((rawSharesOf r bs).map RawShare.raw) →
      ((rawSharesOf r bs).map RawShare.raw).get? j = some a →
      ((rawSharesOf r bs).map RawShare.raw).get?
        (maxRawIdx ((rawSharesOf r bs).map RawShare.raw)) = some b → a < b) := by
  refine ⟨?_, ?_, computeAdjusted_get?_max r bs hne hd, ?_, ?_⟩
  · rw [distribute_ok runId offeringId period r bs hr hne htot]
  · have hrne : rawSharesOf r bs ≠ [] := rawSharesOf_ne_nil r bs hne
    have := maxRawIdx_lt_length ((rawSharesOf r bs).map RawShare.raw)
      (by simpa using hrne)
    simpa [length_rawSharesOf] using this
  · intro j a b ha hb
    exact maxRawIdx_maximal ha hb
  · intro j a b hjm ha hb
    exact maxRawIdx_earliest hjm ha hb

/-- C3 witness: weights `{1, 1, 1}` with `revenueAmount = 100` — the first
investor (earliest tied largest raw share) receives `33.34`, the other two
`33.33`; the reconciliation index is 0 and is in range. -/
theorem distribute_largest_share_reconciliation_witness :
    ((distribute 1 "off-1" ⟨0, 1⟩ 100 threeEqual).1.map fun res =>
        res.payouts.map Payout.amount) = .ok ["33.34", "33.33", "33.33"] ∧
    maxRawIdx ((rawSharesOf 100 threeEqual).map RawShare.raw) = 0 ∧
    maxRawIdx ((rawSharesOf 100 threeEqual).map RawShare.raw) < threeEqual.length :=
  ⟨by decide, by decide,
    (distribute_largest_share_reconciliation 1 "off-1" ⟨0, 1⟩ 100 threeEqual
        (by decide) (by decide) (by decide) (by decide)).2.1⟩

/-- C4: Non-positive amount rejection — for `revenueAmount ≤ 0` the call
fails with `InvalidAmount` and the external-call trace is empty: neither
the balance source nor the distribution store is ever invoked. -/
theorem distribute_invalid_amount_rejection (runId : Nat) (offeringId : String)
    (period : Period) (r : ℚ) (bs : List BalanceRow) (hr : r ≤ 0) :
    distribute runId offeringId period r bs = (.error .invalidAmount, []) := by
  rw [distribute, if_pos hr]

/-- C4 witness: `revenueAmount = 0`. -/
theorem distribute_invalid_amount_rejection_witness :
    distribute 1 "off-1" ⟨0, 1⟩ 0 twoParty = (.error .invalidAmount, []) :=
  distribute_invalid_amount_rejection 1 "off-1" ⟨0, 1⟩ 0 twoParty (by decide)

/-- C5: Empty-weights rejection — for positive `revenueAmount` and an empty
weight list the call fails with `NoInvestors`; the trace holds only the
balance acquisition, and no persistence call is performed. -/
theorem distribute_empty_weights_rejection (runId : Nat) (offeringId : String)
    (period : Period) (r : ℚ) (hr : 0 < r) :
    distribute runId offeringId period r [] =
      (.error .noInvestors, [.getBalances offeringId period]) ∧
    (distribute runId offeringId period r []).2.filter
      (fun c => isPersistCall c) = [] := by
  have h : distribute runId offeringId period r [] =
      (.error .noInvestors, [.getBalances offeringId period]) := by
    rw [distribute, if_neg (not_le.mpr hr)]
    rfl
  exact ⟨h, by rw [h]; rfl⟩

/-- C5 witness: `revenueAmount = 7`, empty weight list. -/
theorem distribute_empty_weights_rejection_witness :
    distribute 1 "off-1" ⟨0, 1⟩ 7 [] =
      (.error .noInvestors, [.getBalances "off-1" ⟨0, 1⟩]) :=
  (distribute_empty_weights_rejection 1 "off-1" ⟨0, 1⟩ 7 (by decide)).1

/-- C6: Zero-total-balance rejection — for positive `revenueAmount` and a
non-empty weight list whose balances sum to zero the call fails with
`ZeroTotalBalance`; no Distribution Run and no Payout is created. -/
theorem distribute_zero_total_balance_rejection (runId : Nat)
    (offeringId : String) (period : Period) (r : ℚ) (bs : List BalanceRow)
    (hr : 0 < r) (hne : bs ≠ []) (htot : totalBalanceOf bs = 0) :
    distribute runId offeringId period r bs =
      (.error .zeroTotalBalance, [.getBalances offeringId period]) ∧
    (distribute runId offeringId period r bs).2.filter
      (fun c => isPersistCall c) = [] := by
  cases bs with
  | nil => exact absurd rfl hne
  | cons b bs' =>
    have h : distribute runId offeringId period r (b :: bs') =
        (.error .zeroTotalBalance, [.getBalances offeringId period]) := by
      rw [distribute, if_neg (not_le.mpr hr)]
      have hie : (b :: bs').isEmpty = false := rfl
      rw [hie]
      simp only [Bool.false_eq_true, if_false]
      rw [if_pos (le_of_eq htot)]
    exact ⟨h, by rw [h]; rfl⟩

/-- C6 witness: a single investor with balance 0 and `revenueAmount = 5`. -/
theorem distribute_zero_total_balance_rejection_witness :
    distribute 1 "off-1" ⟨0, 1⟩ 5 [⟨"i1", 0⟩] =
      (.error .zeroTotalBalance, [.getBalances "off-1" ⟨0, 1⟩]) :=
  (distribute_zero_total_balance_rejection 1 "off-1" ⟨0, 1⟩ 5 [⟨"i1", 0⟩]
      (by decide) (by decide) (by decide)).1

/-- C7: Rounding mode — on the inputs the engine actually sees (all
balances ≥ 0, per the balance-source contract), each raw share is
`(balance / totalBalance) * revenueAmount` and each provisional rounded
share is that raw share rounded independently to 2 decimal places with
round-half-away-from-zero. -/
theorem distribute_rounding_mode (r : ℚ) (bs : List BalanceRow)
    (hr : 0 < r) (hb : ∀ b ∈ bs, 0 ≤ b.balance) (htot : 0 < totalBalanceOf bs) :
    rawSharesOf r bs = (bs.map fun b =>
      RawShare.mk b.investor_id (b.balance / totalBalanceOf bs * r)) ∧
    roundedOf (rawSharesOf r bs) =
      (rawSharesOf r bs).map fun s =>
        RoundedShare.mk s.investor_id (roundHalfAwayFromZero s.raw) := by
  refine ⟨rfl, ?_⟩
  rw [roundedOf]
  apply List.map_congr_left
  intro s hs
  have h0 : 0 ≤ s.raw :=
    rawSharesOf_nonneg r bs (le_of_lt hr) hb (le_of_lt htot) s hs
  rw [roundHalfAwayFromZero, if_pos (by linarith : 0 ≤ s.raw)]
  rfl

/-- C7 witness: the two-party example, balances 70/30, amount 100. -/
theorem distribute_rounding_mode_witness :
    roundedOf (rawSharesOf 100 twoParty) =
      (rawSharesOf 100 twoParty).map fun s =>
        RoundedShare.mk s.investor_id (roundHalfAwayFromZero s.raw) :=
  (distribute_rounding_mode 100 twoParty (by decide) (by decide) (by decide)).2

/-- C8: Persistence shape and order — a successful call produces exactly
the trace: one balance acquisition, then exactly one Distribution Run with
`totalAmount = revenueAmount` formatted to 2 decimals and
`distributionDate = period.end`, then one Payout per acquired weight row in
the acquired order, each referencing the created run's id and carrying its
adjusted amount formatted to 2 decimals; the returned payout list is that
same list in that same order. -/
theorem distribute_persistence_shape_order (runId : Nat) (offeringId : String)
    (period : Period) (r : ℚ) (bs : List BalanceRow)
    (hr : 0 < r) (hne : bs ≠ []) (htot : 0 < totalBalanceOf bs) :
    distribute runId offeringId period r bs =
      (.ok ⟨⟨runId, offeringId, toFixed2 r, period.«end»⟩,
        (computeAdjusted r bs).map fun sh =>
          Payout.mk runId sh.investor_id (toFixed2 sh.amount)⟩,
       [.getBalances offeringId period,
        .createDistributionRun offeringId (toFixed2 r) period.«end»] ++
         ((computeAdjusted r bs).map fun sh =>
           ExtCall.createPayout runId sh.investor_id (toFixed2 sh.amount))) ∧
    (computeAdjusted r bs).map RoundedShare.investor_id =
      bs.map BalanceRow.investor_id ∧
    (computeAdjusted r bs).length = bs.length ∧
    (∀ p ∈ (computeAdjusted r bs).map fun sh =>
        Payout.mk runId sh.investor_id (toFixed2 sh.amount),
      p.distribution_run_id = runId) := by
  refine ⟨distribute_ok runId offeringId period r bs hr hne htot,
    computeAdjusted_map_investor r bs, length_computeAdjusted r bs, ?_⟩
  intro p hp
  obtain ⟨sh, _, rfl⟩ := List.mem_map.mp hp
  rfl

/-- C8 witness: the two-party example, with run id 7.  The run and both
payouts are persisted in input order with the expected rendered amounts. -/
theorem distribute_persistence_shape_order_witness :
    distribute 7 "off-1" ⟨0, 1⟩ 100 twoParty =
      (.ok ⟨⟨7, "off-1", toFixed2 100, 1⟩,
        (computeAdjusted 100 twoParty).map fun sh =>
          Payout.mk 7 sh.investor_id (toFixed2 sh.amount)⟩,
       [.getBalances "off-1" ⟨0, 1⟩,
        .createDistributionRun "off-1" (toFixed2 100) 1] ++
         ((computeAdjusted 100 twoParty).map fun sh =>
           ExtCall.createPayout 7 sh.investor_id (toFixed2 sh.amount))) ∧
    distribute 7 "off-1" ⟨0, 1⟩ 100 twoParty =
      (.ok ⟨⟨7, "off-1", "100.00", 1⟩,
        [⟨7, "i1", "70.00"⟩, ⟨7, "i2", "30.00"⟩]⟩,
       [.getBalances "off-1" ⟨0, 1⟩, .createDistributionRun "off-1" "100.00" 1,
        .createPayout 7 "i1" "70.00", .createPayout 7 "i2" "30.00"]) :=
  ⟨(distribute_persistence_shape_order 7 "off-1" ⟨0, 1⟩ 100 twoParty
      (by decide) (by decide) (by decide)).1, by decide⟩

/-- C9: Determinism / reproducibility — two invocations with the same
offering, period, revenue amount and the same ordered weight list compute
identical per-investor amounts assigned to identical investors, regardless
of the run ids the store assigns. -/
theorem distribute_deterministic (runId₁ runId₂ : Nat) (offeringId : String)
    (period : Period) (r : ℚ) (bs : List BalanceRow) :
    ((distribute runId₁ offeringId period r bs).1.map fun res =>
        res.payouts.map fun p => (p.investor_id, p.amount)) =
    ((distribute runId₂ offeringId period r bs).1.map fun res =>
        res.payouts.map fun p => (p.investor_id, p.amount)) := by
  by_cases h1 : r ≤ 0
  · simp only [distribute, if_pos h1]
  · by_cases h2 : bs.isEmpty
    · simp only [distribute, if_neg h1, if_pos h2]
    · by_cases h3 : totalBalanceOf bs ≤ 0
      · simp only [distribute, if_neg h1, if_neg h2, if_pos h3]
      · simp only [distribute, if_neg h1, if_neg h2, if_neg h3]
        simp [Except.map, List.map_map, Function.comp]

/-- C10: At-most-one adjustment — on a successful call every index other
than the reconciliation index keeps exactly the independent 2-decimal
rounding of its own raw share, and when the residual is below one cent no
index is adjusted at all. -/
theorem distribute_at_most_one_adjustment (runId : Nat) (offeringId : String)
    (period : Period) (r : ℚ) (bs : List BalanceRow)
    (hr : 0 < r) (hne : bs ≠ []) (htot : 0 < totalBalanceOf bs) :
    (distribute runId offeringId period r bs).1 =
      .ok ⟨⟨runId, offeringId, toFixed2 r, period.«end»⟩,
        (computeAdjusted r bs).map fun sh =>
          Payout.mk runId sh.investor_id (toFixed2 sh.amount)⟩ ∧
    (∀ j, j ≠ maxRawIdx ((rawSharesOf r bs).map RawShare.raw) →
      (computeAdjusted r bs).get? j =
        ((rawSharesOf r bs).get? j).map
          fun s => RoundedShare.mk s.investor_id (roundCents s.raw)) ∧
    (¬ 1/100 ≤ |diffOf r (rawSharesOf r bs)| →
      computeAdjusted r bs = roundedOf (rawSharesOf r bs)) := by
  refine ⟨?_, ?_, ?_⟩
  · rw [distribute_ok runId offeringId period r bs hr hne htot]
  · intro j hj
    rw [computeAdjusted_get?_ne r bs j hj, roundedOf_get?]
  · intro hd
    rw [computeAdjusted_def, if_neg hd]

/-- C10 witness: in the three-way equal split only index 0 is adjusted;
index 1 keeps the plain rounding of its own raw share. -/
theorem distribute_at_most_one_adjustment_witness :
    (computeAdjusted 100 threeEqual).get? 1 =
      ((rawSharesOf 100 threeEqual).get? 1).map
        fun s => RoundedShare.mk s.investor_id (roundCents s.raw) :=
  (distribute_at_most_one_adjustment 1 "off-1" ⟨0, 1⟩ 100 threeEqual
      (by decide) (by decide) (by decide)).2.1 1 (by decide)

end Revora
